import Mathlib

/-!
Shallow embedding of the homophone-discovery engine of
`Software/Word/homoform.py`, together with theorems settling the
specification's claims about it.

The two external oracles the engine consumes — the `fuzzywuzzy` similarity
score and the `wordfreq` Zipf table — are parameters of the embedding
(`SearchEnv`), exactly as the spec treats them (external collaborators).
Everything else is translated line by line from the source.
-/

namespace Homoform

/-- Python `word.lower()` as applied in the source (lines 29, 37, 262):
ASCII lowercasing, character by character. `Char.toLower` maps the basic
latin capitals to their lowercase forms and leaves everything else alone,
which coincides with CPython's `str.lower` on the ASCII range the
CMU-dictionary words live in. -/
def pyLower (s : String) : String := ⟨s.data.map Char.toLower⟩

/-- One pronunciation: an ordered list of phoneme symbols (`pron`). -/
abbrev Pron := List String

/-- The pronunciation dictionary `cmudict.dict()` as an association list of
`(word, pronunciation variants)` items in iteration order; the dictionary's
keys are pairwise distinct. -/
abbrev Store := List (String × List Pron)

/-- Line 28 / line 52, per symbol: `p[:-1] if p[-1].isdigit() else p`, the
stress-digit strip. The source indexes `p[-1]`, presupposing a non-empty
symbol; the empty symbol is left unchanged here. -/
def stripStress (p : String) : String :=
  if p ≠ "" ∧ p.back.isDigit then p.dropRight 1 else p

/-- Line 28 / line 52, per pronunciation: the normalized sequence
`tuple(p[:-1] if p[-1].isdigit() else p for p in pron)`. -/
def normalize (pron : Pron) : Pron := pron.map stripStress

/-- The builder's `defaultdict(list)` keyed by normalized sequence, modelled
as an association list in key-insertion order, each key holding its word
list in append order. -/
abbrev PhonemeMap := List (Pron × List String)

/-- One `phoneme_map[clean].append(w)` step on the `defaultdict(list)`:
append to the existing key's list, or create the key at the end. -/
def pmAppend (m : PhonemeMap) (k : Pron) (w : String) : PhonemeMap :=
  match m with
  | [] => [(k, [w])]
  | (k', ws) :: rest =>
    if k' = k then (k', ws ++ [w]) :: rest else (k', ws) :: pmAppend rest k w

/-- Reading `phoneme_map[seq]`: the word list under a key, `[]` when the key
is absent (a `defaultdict(list)` read). -/
def pmLookup (m : PhonemeMap) (k : Pron) : List String :=
  match m with
  | [] => []
  | (k', ws) :: rest => if k' = k then ws else pmLookup rest k

/-- The inner loop of `PhonemeMapBuilder.run` (lines 27–29) for one word:
append the (already lowercased) word under each pronunciation's normalized
key. -/
def insertProns (w0 : String) (m : PhonemeMap) (ps : List Pron) : PhonemeMap :=
  ps.foldl (fun m' pron => pmAppend m' (normalize pron) w0) m

/-- One iteration of the outer loop of `PhonemeMapBuilder.run` (lines 25–29):
process one `(word, prons)` dictionary item, lowercasing the word. -/
def insertItem (m : PhonemeMap) (item : String × List Pron) : PhonemeMap :=
  insertProns (pyLower item.1) m item.2

/-- `PhonemeMapBuilder.run` (lines 21–30), index part: for every dictionary
item and every one of its pronunciations, append the lowercased word under
the pronunciation's normalized key. -/
def buildPhonemeMap (store : Store) : PhonemeMap :=
  store.foldl insertItem []

/-- `PhonemeMapBuilder.run` (lines 24–26), progress part: the integers passed
to `self.progress.emit`, in emission order — `int((i/total)*100)` emitted at
the top of iteration `i` for `i = 0 … total-1`, `total = len(cmu_dict)`. -/
def progressEmissions (store : Store) : List Nat :=
  (List.range store.length).map (fun i => i * 100 / store.length)

/-- The two external oracles `HomophoneWorker.process` calls: the
`fuzz.ratio` similarity score (an integer in `[0,100]`) and the `wordfreq`
Zipf table, `none` for a word absent from the frequency list. -/
structure SearchEnv where
  score : String → String → Nat
  freq : String → Option ℚ

/-- `zipf_frequency(w, 'en')`: the Zipf score of a word, `0` for a word
missing from the frequency list (the value `wordfreq` documents it returns
in that case). -/
def zipfFrequency (env : SearchEnv) (w : String) : ℚ := (env.freq w).getD 0

/-- `cmu_dict.get(w, [])` (line 46): the pronunciation variants of a word,
`[]` when the word has no entry. -/
def cmuLookup (store : Store) (w : String) : List Pron :=
  match store with
  | [] => []
  | (w', prons) :: rest => if w' = w then prons else cmuLookup rest w

/-- The query's normalized sequences, `target_sequences` (lines 50–53). -/
def targetSequences (store : Store) (word : String) : List Pron :=
  (cmuLookup store word).map normalize

/-- `' '.join(seq)` (line 58): a sequence rendered as a space-joined symbol
string for scoring. -/
def spaceJoin (seq : Pron) : String := String.intercalate " " seq

/-- Lines 56–59: the index entries whose key scores at least `accuracy`
against at least one target sequence. -/
def matchedEntries (env : SearchEnv) (m : PhonemeMap) (targets : List Pron)
    (accuracy : Nat) : PhonemeMap :=
  m.filter (fun e => targets.any (fun t => accuracy ≤ env.score (spaceJoin t) (spaceJoin e.1)))

/-- The matched-sequence set at a given threshold: the keys accepted by the
fuzzy matcher. -/
def matchedSequences (env : SearchEnv) (m : PhonemeMap) (targets : List Pron)
    (accuracy : Nat) : List Pron :=
  (matchedEntries env m targets accuracy).map Prod.fst

/-- The `candidates` set (lines 55–60): every word stored under a matched
sequence, deduplicated (the source accumulates them into a Python `set`). -/
def candidateWords (env : SearchEnv) (m : PhonemeMap) (targets : List Pron)
    (accuracy : Nat) : List String :=
  ((matchedEntries env m targets accuracy).flatMap Prod.snd).dedup

/-- Lines 62–70, the `valid` list: drop the query word itself, then — when
the frequency filter is on — drop every word whose Zipf score is below
`min_zipf`. -/
def validWords (env : SearchEnv) (cands : List String) (word : String)
    (minZipf : ℚ) (useFreqFilter : Bool) : List String :=
  cands.filter (fun w =>
    if w = word then false
    else if useFreqFilter then decide (minZipf ≤ zipfFrequency env w) else true)

/-- The sort key of line 73, `key=lambda w: (-zipf_frequency(w,'en'), w)`,
as the induced total preorder: `w` precedes `v` when `w`'s frequency is
strictly higher, ties broken by ascending lexicographic order. -/
def rankLE (env : SearchEnv) (w v : String) : Prop :=
  zipfFrequency env v < zipfFrequency env w ∨
    (zipfFrequency env w = zipfFrequency env v ∧ w ≤ v)

instance rankLEDecidable (env : SearchEnv) : DecidableRel (rankLE env) := fun w v => by
  unfold rankLE; infer_instance

/-- `sorted(unique, key=...)` (line 73). Python's `sorted` is a stable sort;
on a decidable total preorder every stable sort has the same output, so the
structurally recursive stable `insertionSort` embeds it faithfully. -/
def sortWords (env : SearchEnv) (l : List String) : List String :=
  l.insertionSort (rankLE env)

/-- Line 74: `sorted_words[:max_results] if max_results > 0 else sorted_words`. -/
def capResults (maxResults : Nat) (l : List String) : List String :=
  if 0 < maxResults then l.take maxResults else l

/-- Lines 72–74 as one step: deduplicate (`unique = list(set(valid))`), sort
by the line-73 key, cap. -/
def rankAndCap (env : SearchEnv) (maxResults : Nat) (l : List String) : List String :=
  capResults maxResults (sortWords env l.dedup)

/-- `HomophoneWorker.process` (lines 44–75) on an already-lowercased query:
emit `[]` when the word has no dictionary entry, otherwise the ranked,
capped homophone list. -/
def processLowered (env : SearchEnv) (store : Store) (m : PhonemeMap) (word : String)
    (accuracy : Nat) (minZipf : ℚ) (maxResults : Nat) (useFreqFilter : Bool) : List String :=
  if cmuLookup store word = [] then []
  else
    rankAndCap env maxResults
      (validWords env
        (candidateWords env m (targetSequences store word) accuracy)
        word minZipf useFreqFilter)

/-- A full worker run: `HomophoneWorker.__init__` lowercases the query word
(line 37), then `process` runs with it. -/
def process (env : SearchEnv) (store : Store) (m : PhonemeMap) (word : String)
    (accuracy : Nat) (minZipf : ℚ) (maxResults : Nat) (useFreqFilter : Bool) : List String :=
  processLowered env store m (pyLower word) accuracy minZipf maxResults useFreqFilter

/-- Outcome of `MainWindow.start_search` (lines 261–290): the handler either
returns at the guard on lines 263–264 with no observable effect, or starts a
worker for the request it assembled. -/
inductive StartOutcome where
  | ignored : StartOutcome
  | started (word : String) (accuracy : Nat) (minZipf : ℚ) (maxResults : Nat)
      (useFreqFilter : Bool) : StartOutcome
deriving DecidableEq

/-- `MainWindow.start_search` (lines 261–281): `word = text.strip().lower()`;
`if not word or not self.is_ready: return` — a bare return; otherwise a
worker is started with the slider values, the cap forced to `0` and the
frequency filter off when the unlimited toggle is checked (lines 268–269). -/
def startSearch (isReady : Bool) (text : String) (accuracy : Nat) (minZipf : ℚ)
    (resultCap : Nat) (unlimited : Bool) : StartOutcome :=
  let word := pyLower text.trim
  if word = "" ∨ isReady = false then .ignored
  else .started word accuracy minZipf (if unlimited then 0 else resultCap) (!unlimited)

/-- A concrete admissible similarity oracle for witnesses: exact match
scores 100, anything else 0 — reflexive at 100, symmetric, range `[0,100]`,
as `fuzz.ratio` is. -/
def score₀ : String → String → Nat := fun a b => if a = b then 100 else 0

/-- A concrete frequency oracle for witnesses. -/
def freq₀ : String → Option ℚ := fun w =>
  if w = "night" then some 5 else if w = "knight" then some 4 else none

/-- A concrete environment for witnesses. -/
def env₀ : SearchEnv := ⟨score₀, freq₀⟩

/-- A concrete pronunciation store for witnesses and counterexamples:
`night`/`knight` share a normalized sequence, and `reese` has two stress
variants that normalize to the same sequence. -/
def store₀ : Store :=
  [("night", [["N", "AY1", "T"]]),
   ("knight", [["N", "AY1", "T"]]),
   ("reese", [["R", "IY1", "S"], ["R", "IY0", "S"]])]

/-! ### Supporting lemmas -/

/-- A basic latin lowercase character stays fixed under `Char.toLower`. -/
theorem charToLower_ofNat_fix (n : Nat) (h1 : 65 ≤ n) (h2 : n ≤ 90) :
    (Char.ofNat (n + 32)).toLower = Char.ofNat (n + 32) := by
  interval_cases n <;> decide

/-- Unfolding `Char.toLower` in the uppercase-range case. -/
theorem charToLower_of_upper (c : Char) (h : 65 ≤ c.toNat ∧ c.toNat ≤ 90) :
    c.toLower = Char.ofNat (c.toNat + 32) := by
  unfold Char.toLower
  simp only [ge_iff_le]
  rw [if_pos h]

/-- Unfolding `Char.toLower` outside the uppercase range. -/
theorem charToLower_of_not_upper (c : Char) (h : ¬(65 ≤ c.toNat ∧ c.toNat ≤ 90)) :
    c.toLower = c := by
  unfold Char.toLower
  simp only [ge_iff_le]
  rw [if_neg h]

/-- ASCII lowercasing is idempotent per character. -/
theorem charToLower_idem (c : Char) : c.toLower.toLower = c.toLower := by
  by_cases h : 65 ≤ c.toNat ∧ c.toNat ≤ 90
  · rw [charToLower_of_upper c h]
    exact charToLower_ofNat_fix c.toNat h.1 h.2
  · rw [charToLower_of_not_upper c h, charToLower_of_not_upper c h]

/-- Python lowercasing is idempotent. -/
theorem pyLower_idem (s : String) : pyLower (pyLower s) = pyLower s := by
  unfold pyLower
  simp only [List.map_map]
  rw [show Char.toLower ∘ Char.toLower = Char.toLower from funext charToLower_idem]

/-- Effect of one `defaultdict` append on every key's word list. -/
theorem pmLookup_pmAppend (m : PhonemeMap) (k' k : Pron) (w : String) :
    pmLookup (pmAppend m k' w) k =
      if k' = k then pmLookup m k ++ [w] else pmLookup m k := by
  induction m with
  | nil => by_cases h : k' = k <;> simp [pmAppend, pmLookup, h]
  | cons e rest ih =>
    obtain ⟨k₀, ws⟩ := e
    by_cases h0 : k₀ = k'
    · subst h0
      by_cases hk : k₀ = k
      · subst hk
        simp [pmAppend, pmLookup]
      · simp [pmAppend, pmLookup, hk]
    · by_cases hk : k₀ = k
      · subst hk
        have h' : ¬ k' = k₀ := fun h => h0 h.symm
        simp [pmAppend, pmLookup, h0, h']
      · simp [pmAppend, pmLookup, h0, hk, ih]

/-- The keys of the index, in insertion order. -/
def pmKeys (m : PhonemeMap) : List Pron := m.map Prod.fst

/-- Appending under a key makes that key present. -/
theorem mem_pmKeys_pmAppend_self (m : PhonemeMap) (k : Pron) (w : String) :
    k ∈ pmKeys (pmAppend m k w) := by
  induction m with
  | nil => simp [pmAppend, pmKeys]
  | cons e rest ih =>
    obtain ⟨k₀, ws⟩ := e
    by_cases h : k₀ = k
    · subst h; simp [pmAppend, pmKeys]
    · simpa [pmAppend, pmKeys, h] using Or.inr (by simpa [pmKeys] using ih)

/-- Appending never removes a key. -/
theorem mem_pmKeys_pmAppend_mono (m : PhonemeMap) (k' k : Pron) (w : String)
    (h : k ∈ pmKeys m) : k ∈ pmKeys (pmAppend m k' w) := by
  induction m with
  | nil => simp [pmKeys] at h
  | cons e rest ih =>
    obtain ⟨k₀, ws⟩ := e
    by_cases h0 : k₀ = k'
    · subst h0; simpa [pmAppend, pmKeys] using by simpa [pmKeys] using h
    · simp only [pmKeys, List.map_cons, List.mem_cons] at h
      rcases h with h | h
      · simp [pmAppend, pmKeys, h0, h]
      · simpa [pmAppend, pmKeys, h0] using Or.inr (by simpa [pmKeys] using ih (by simpa [pmKeys] using h))

/-- The inner builder loop never removes a key. -/
theorem mem_pmKeys_insertProns_mono (w0 : String) (ps : List Pron) (m : PhonemeMap)
    (k : Pron) (h : k ∈ pmKeys m) : k ∈ pmKeys (insertProns w0 m ps) := by
  induction ps generalizing m with
  | nil => simpa [insertProns] using h
  | cons p ps ih =>
    simp only [insertProns, List.foldl_cons]
    exact ih _ (mem_pmKeys_pmAppend_mono _ _ _ _ h)

/-- After the inner builder loop, each pronunciation's normalized key is
present. -/
theorem mem_pmKeys_insertProns_self (w0 : String) (ps : List Pron) (m : PhonemeMap)
    (pron : Pron) (h : pron ∈ ps) : normalize pron ∈ pmKeys (insertProns w0 m ps) := by
  induction ps generalizing m with
  | nil => simp at h
  | cons p ps ih =>
    simp only [insertProns, List.foldl_cons]
    rcases List.mem_cons.mp h with rfl | h'
    · exact mem_pmKeys_insertProns_mono _ _ _ _ (mem_pmKeys_pmAppend_self _ _ _)
    · exact ih _ h'

/-- The outer builder loop never removes a key. -/
theorem mem_pmKeys_foldl_mono (store : Store) (m : PhonemeMap) (k : Pron)
    (h : k ∈ pmKeys m) : k ∈ pmKeys (store.foldl insertItem m) := by
  induction store generalizing m with
  | nil => simpa using h
  | cons item rest ih =>
    simp only [List.foldl_cons]
    exact ih _ (mem_pmKeys_insertProns_mono _ _ _ _ h)

/-- Every pronunciation of every stored word contributes its normalized key
to the built index. -/
theorem mem_pmKeys_buildPhonemeMap (store : Store) (item : String × List Pron)
    (pron : Pron) (hitem : item ∈ store) (hpron : pron ∈ item.2) :
    normalize pron ∈ pmKeys (buildPhonemeMap store) := by
  unfold buildPhonemeMap
  suffices h : ∀ m : PhonemeMap, normalize pron ∈ pmKeys (store.foldl insertItem m) from h []
  intro m
  induction store generalizing m with
  | nil => simp at hitem
  | cons it rest ih =>
    simp only [List.foldl_cons]
    rcases List.mem_cons.mp hitem with rfl | hitem'
    · exact mem_pmKeys_foldl_mono _ _ _ (mem_pmKeys_insertProns_self _ _ _ _ hpron)
    · exact ih hitem' _

/-- All words stored anywhere in the index, per-entry lists concatenated. -/
def pmWords (m : PhonemeMap) : List String := m.flatMap Prod.snd

/-- An append only adds the appended word to the stored words. -/
theorem mem_pmWords_pmAppend (m : PhonemeMap) (k : Pron) (v w : String)
    (h : w ∈ pmWords (pmAppend m k v)) : w ∈ pmWords m ∨ w = v := by
  induction m with
  | nil =>
    simp [pmWords, pmAppend] at h
    exact Or.inr h
  | cons e rest ih =>
    obtain ⟨k₀, ws⟩ := e
    by_cases h0 : k₀ = k
    · subst h0
      simp only [pmWords, pmAppend, if_pos rfl, List.flatMap_cons] at h ⊢
      rcases List.mem_append.mp h with h1 | h2
      · rcases List.mem_append.mp h1 with ha | hb
        · exact Or.inl (List.mem_append.mpr (Or.inl ha))
        · exact Or.inr (List.mem_singleton.mp hb)
      · exact Or.inl (List.mem_append.mpr (Or.inr h2))
    · simp only [pmWords, pmAppend, if_neg h0, List.flatMap_cons] at h ⊢
      rcases List.mem_append.mp h with h1 | h2
      · exact Or.inl (List.mem_append.mpr (Or.inl h1))
      · rcases ih h2 with ha | hb
        · exact Or.inl (List.mem_append.mpr (Or.inr ha))
        · exact Or.inr hb

/-- The inner builder loop only adds the one lowercased word. -/
theorem mem_pmWords_insertProns (w0 : String) (ps : List Pron) (m : PhonemeMap)
    (w : String) (h : w ∈ pmWords (insertProns w0 m ps)) : w ∈ pmWords m ∨ w = w0 := by
  induction ps generalizing m with
  | nil => exact Or.inl (by simpa [insertProns] using h)
  | cons p ps ih =>
    simp only [insertProns, List.foldl_cons] at h
    rcases ih _ h with h1 | h2
    · exact mem_pmWords_pmAppend _ _ _ _ h1
    · exact Or.inr h2

/-- The outer builder loop only adds lowercased words. -/
theorem mem_pmWords_foldl (store : Store) (m : PhonemeMap) (w : String)
    (h : w ∈ pmWords (store.foldl insertItem m)) :
    w ∈ pmWords m ∨ ∃ r, w = pyLower r := by
  induction store generalizing m with
  | nil => exact Or.inl (by simpa using h)
  | cons item rest ih =>
    simp only [List.foldl_cons] at h
    rcases ih _ h with h1 | h2
    · rcases mem_pmWords_insertProns _ _ _ _ h1 with ha | hb
      · exact Or.inl ha
      · exact Or.inr ⟨item.1, hb⟩
    · exact h2.elim (fun r hr => Or.inr ⟨r, hr⟩)

/-- Every word stored in the built index is a fixed point of lowercasing. -/
theorem pyLower_fix_of_mem_pmWords_build (store : Store) (w : String)
    (h : w ∈ pmWords (buildPhonemeMap store)) : pyLower w = w := by
  rcases mem_pmWords_foldl store [] w h with h1 | ⟨r, rfl⟩
  · simp [pmWords] at h1
  · exact pyLower_idem r

/-- Multiplicity bookkeeping for one append. -/
theorem count_pmLookup_pmAppend (m : PhonemeMap) (k' k : Pron) (v w : String) :
    (pmLookup (pmAppend m k' v) k).count w =
      (pmLookup m k).count w + (if k' = k ∧ v = w then 1 else 0) := by
  rw [pmLookup_pmAppend]
  by_cases h : k' = k
  · by_cases hv : v = w
    · simp [h, hv, List.count_append]
    · have h0 : List.count w [v] = 0 :=
        List.count_eq_zero.mpr (fun hm => hv (List.mem_singleton.mp hm).symm)
      simp [h, hv, List.count_append, h0]
  · simp [h]

/-- Multiplicity bookkeeping for the inner builder loop: the word `w0` gains
one occurrence under key `k` per pronunciation normalizing to `k`. -/
theorem count_pmLookup_insertProns (w0 : String) (ps : List Pron) (m : PhonemeMap)
    (k : Pron) (w : String) :
    (pmLookup (insertProns w0 m ps) k).count w =
      (pmLookup m k).count w + (if w0 = w then (ps.map normalize).count k else 0) := by
  induction ps generalizing m with
  | nil => simp [insertProns]
  | cons p ps ih =>
    have hstep : insertProns w0 m (p :: ps) =
        insertProns w0 (pmAppend m (normalize p) w0) ps := rfl
    rw [hstep, ih _, count_pmLookup_pmAppend]
    by_cases h : w0 = w <;> by_cases h2 : normalize p = k <;>
      simp [h, h2, List.count_cons] <;> omega

/-- Multiplicity bookkeeping for the whole build: the number of occurrences
of `w` under key `k` is the sum over dictionary items of the number of that
item's pronunciations normalizing to `k`, counting only items whose
lowercased word is `w`. -/
theorem count_pmLookup_foldl (store : Store) (m : PhonemeMap) (k : Pron) (w : String) :
    (pmLookup (store.foldl insertItem m) k).count w =
      (pmLookup m k).count w +
        (store.map (fun item =>
          if pyLower item.1 = w then (item.2.map normalize).count k else 0)).sum := by
  induction store generalizing m with
  | nil => simp
  | cons item rest ih =>
    simp only [List.foldl_cons, List.map_cons, List.sum_cons]
    rw [ih _]
    unfold insertItem
    rw [count_pmLookup_insertProns]
    omega

theorem count_pmLookup_buildPhonemeMap (store : Store) (k : Pron) (w : String) :
    (pmLookup (buildPhonemeMap store) k).count w =
      (store.map (fun item =>
        if pyLower item.1 = w then (item.2.map normalize).count k else 0)).sum := by
  unfold buildPhonemeMap
  rw [count_pmLookup_foldl]
  simp [pmLookup]

/-! ### The ranking order -/

theorem rankLE_total_aux (env : SearchEnv) :
    ∀ w v, rankLE env w v ∨ rankLE env v w := by
  intro w v
  rcases lt_trichotomy (zipfFrequency env w) (zipfFrequency env v) with h | h | h
  · exact Or.inr (Or.inl h)
  · rcases le_total w v with hl | hl
    · exact Or.inl (Or.inr ⟨h, hl⟩)
    · exact Or.inr (Or.inr ⟨h.symm, hl⟩)
  · exact Or.inl (Or.inl h)

instance rankLEIsTotal (env : SearchEnv) : IsTotal String (rankLE env) :=
  ⟨rankLE_total_aux env⟩

instance rankLEIsTrans (env : SearchEnv) : IsTrans String (rankLE env) := by
  constructor
  intro a b c hab hbc
  rcases hab with h1 | ⟨e1, l1⟩ <;> rcases hbc with h2 | ⟨e2, l2⟩
  · exact Or.inl (h2.trans h1)
  · exact Or.inl (by rw [← e2]; exact h1)
  · exact Or.inl (by rw [e1]; exact h2)
  · exact Or.inr ⟨e1.trans e2, l1.trans l2⟩

instance rankLEIsAntisymm (env : SearchEnv) : IsAntisymm String (rankLE env) := by
  constructor
  intro a b hab hba
  rcases hab with h1 | ⟨e1, l1⟩ <;> rcases hba with h2 | ⟨e2, l2⟩
  · exact absurd (h1.trans h2) (lt_irrefl _)
  · exact absurd h1 (by rw [e2]; exact lt_irrefl _)
  · exact absurd h2 (by rw [e1]; exact lt_irrefl _)
  · exact le_antisymm l1 l2

theorem sorted_sortWords (env : SearchEnv) (l : List String) :
    List.Sorted (rankLE env) (sortWords env l) :=
  List.sorted_insertionSort _ _

theorem perm_sortWords (env : SearchEnv) (l : List String) :
    List.Perm (sortWords env l) l :=
  List.perm_insertionSort _ _

/-! ### Membership helpers through the ranking pipeline -/

theorem mem_of_mem_capResults {cap : Nat} {l : List String} {w : String}
    (h : w ∈ capResults cap l) : w ∈ l := by
  unfold capResults at h
  split at h
  · exact List.take_subset _ _ h
  · exact h

/-- The words that survive filtering and deduplication, before ranking:
`set(valid)` in the source. -/
def survivors (env : SearchEnv) (store : Store) (m : PhonemeMap) (word : String)
    (accuracy : Nat) (minZipf : ℚ) (useFreqFilter : Bool) : List String :=
  (validWords env (candidateWords env m (targetSequences store word) accuracy)
    word minZipf useFreqFilter).dedup

/-- The whole worker body is the ranking pipeline applied to the survivor
set: when the dictionary lookup is empty every intermediate set is empty, so
the early `return` of line 48 emits the same value the pipeline would. -/
theorem processLowered_eq (env : SearchEnv) (store : Store) (m : PhonemeMap)
    (word : String) (accuracy : Nat) (minZipf : ℚ) (maxResults : Nat) (useFreqFilter : Bool) :
    processLowered env store m word accuracy minZipf maxResults useFreqFilter =
      capResults maxResults
        (sortWords env (survivors env store m word accuracy minZipf useFreqFilter)) := by
  unfold processLowered rankAndCap survivors
  by_cases h : cmuLookup store word = []
  · rw [if_pos h]
    simp [targetSequences, h, matchedEntries, candidateWords, validWords,
      sortWords, capResults, List.insertionSort]
  · rw [if_neg h]

theorem mem_survivors_of_mem_process {env : SearchEnv} {store : Store} {m : PhonemeMap}
    {word : String} {accuracy : Nat} {minZipf : ℚ} {maxResults : Nat} {useFreqFilter : Bool}
    {w : String} (h : w ∈ process env store m word accuracy minZipf maxResults useFreqFilter) :
    w ∈ survivors env store m (pyLower word) accuracy minZipf useFreqFilter := by
  unfold process at h
  rw [processLowered_eq] at h
  exact (perm_sortWords env _).mem_iff.mp (mem_of_mem_capResults h)

theorem mem_validWords_iff {env : SearchEnv} {cands : List String} {word : String}
    {minZipf : ℚ} {useFreqFilter : Bool} {w : String} :
    w ∈ validWords env cands word minZipf useFreqFilter ↔
      w ∈ cands ∧ w ≠ word ∧ (useFreqFilter = true → minZipf ≤ zipfFrequency env w) := by
  unfold validWords
  rw [List.mem_filter]
  constructor
  · rintro ⟨hc, hp⟩
    by_cases hw : w = word
    · rw [if_pos hw] at hp
      exact absurd hp (by simp)
    · refine ⟨hc, hw, fun hff => ?_⟩
      rw [if_neg hw, hff] at hp
      simpa using hp
  · rintro ⟨hc, hw, hff⟩
    refine ⟨hc, ?_⟩
    rw [if_neg hw]
    cases useFreqFilter
    · simp
    · simpa using hff rfl

theorem mem_survivors_iff {env : SearchEnv} {store : Store} {m : PhonemeMap}
    {word : String} {accuracy : Nat} {minZipf : ℚ} {useFreqFilter : Bool} {w : String} :
    w ∈ survivors env store m word accuracy minZipf useFreqFilter ↔
      w ∈ candidateWords env m (targetSequences store word) accuracy ∧ w ≠ word ∧
        (useFreqFilter = true → minZipf ≤ zipfFrequency env w) := by
  unfold survivors
  rw [List.mem_dedup, mem_validWords_iff]

/-- Candidate words all come from the index's stored word lists. -/
theorem mem_pmWords_of_mem_candidateWords {env : SearchEnv} {m : PhonemeMap}
    {targets : List Pron} {accuracy : Nat} {w : String}
    (h : w ∈ candidateWords env m targets accuracy) : w ∈ pmWords m := by
  unfold candidateWords at h
  rw [List.mem_dedup] at h
  rw [List.mem_flatMap] at h
  obtain ⟨e, he, hw⟩ := h
  unfold pmWords
  rw [List.mem_flatMap]
  exact ⟨e, List.mem_of_mem_filter he, hw⟩

/-- A non-empty dictionary lookup exhibits the store item it came from. -/
theorem cmuLookup_mem (store : Store) (w : String) (h : cmuLookup store w ≠ []) :
    (w, cmuLookup store w) ∈ store := by
  induction store with
  | nil => simp [cmuLookup] at h
  | cons e rest ih =>
    obtain ⟨w', prons⟩ := e
    by_cases hw : w' = w
    · subst hw
      simp [cmuLookup]
    · simp only [cmuLookup, if_neg hw] at h ⊢
      exact List.mem_cons_of_mem _ (ih h)

/-- A second concrete store, with distinct words and collision-free
pronunciation variants. -/
def store₁ : Store :=
  [("night", [["N", "AY1", "T"]]), ("knight", [["N", "AY1", "T"]])]

/-! ### Claim theorems -/

/-- C4: for every environment, index, query-sequence set and pair of
thresholds `t1 ≤ t2`, the matched-sequence set at `t2` is contained in the
one at `t1` and is no larger: raising the similarity threshold never
increases the matched-sequence set. -/
theorem c4_threshold_monotone (env : SearchEnv) (m : PhonemeMap) (targets : List Pron)
    (t1 t2 : Nat) (h : t1 ≤ t2) :
    (∀ s ∈ matchedSequences env m targets t2, s ∈ matchedSequences env m targets t1) ∧
      (matchedSequences env m targets t2).length ≤
        (matchedSequences env m targets t1).length := by
  have hsub : List.Sublist (matchedEntries env m targets t2) (matchedEntries env m targets t1) := by
    unfold matchedEntries
    apply List.monotone_filter_right
    intro e hpe
    rw [List.any_eq_true] at hpe ⊢
    obtain ⟨t, ht, hscore⟩ := hpe
    refine ⟨t, ht, ?_⟩
    simp only [decide_eq_true_eq] at hscore ⊢
    exact le_trans h hscore
  have hmap : List.Sublist (matchedSequences env m targets t2)
      (matchedSequences env m targets t1) := hsub.map Prod.fst
  exact ⟨fun s hs => hmap.subset hs, hmap.length_le⟩

/-- C4 witness: instantiated at the night/knight store with thresholds
70 ≤ 100. -/
theorem c4_threshold_monotone_witness :
    (matchedSequences env₀ (buildPhonemeMap store₀)
        (targetSequences store₀ "night") 100).length ≤
      (matchedSequences env₀ (buildPhonemeMap store₀)
        (targetSequences store₀ "night") 70).length :=
  (c4_threshold_monotone env₀ (buildPhonemeMap store₀)
    (targetSequences store₀ "night") 70 100 (by decide)).2

/-- C8 counterexample: with the index not ready, a search for "night" is
silently dropped — `start_search` hits the bare `return` of lines 263–264,
so no worker starts and no `IndexNotReady` (nor any other) error outcome is
produced, contrary to the claim that such searches are rejected with an
`IndexNotReady` error. -/
theorem c8_counterexample :
    startSearch false "night" 90 2 10 false = StartOutcome.ignored := by
  unfold startSearch
  simp

/-- C8 amended: every search issued while the index is not ready is silently
ignored — the handler returns without starting a worker and without
reporting any error. -/
theorem c8_amended (text : String) (accuracy : Nat) (minZipf : ℚ) (cap : Nat)
    (unlimited : Bool) :
    startSearch false text accuracy minZipf cap unlimited = StartOutcome.ignored := by
  unfold startSearch
  simp

/-- C9: the ranking pipeline of lines 72–74 is invariant under the
enumeration order of the word set it receives — the only nondeterminism in
the worker (Python set iteration order) — so two searches with identical
request parameters against the same index produce identical ordered
results. -/
theorem c9_deterministic (env : SearchEnv) (cap : Nat) (l₁ l₂ : List String)
    (h : List.Perm l₁ l₂) : rankAndCap env cap l₁ = rankAndCap env cap l₂ := by
  unfold rankAndCap
  congr 1
  refine List.eq_of_perm_of_sorted ?_ (sorted_sortWords env _) (sorted_sortWords env _)
  exact (perm_sortWords env _).trans (h.dedup.trans (perm_sortWords env _).symm)

/-- C9 witness: two enumeration orders of the same two-word set. -/
theorem c9_deterministic_witness :
    List.Perm ["night", "knight"] ["knight", "night"] ∧
      rankAndCap env₀ 10 ["night", "knight"] = rankAndCap env₀ 10 ["knight", "night"] :=
  ⟨by decide, c9_deterministic env₀ 10 _ _ (by decide)⟩

/-- C10: `HomophoneWorker.__init__` lowercases the query before the
pronunciation lookup and the self-exclusion test, so searching a word and
searching its lowercased form produce the same result. -/
theorem c10_case_insensitive (env : SearchEnv) (store : Store) (m : PhonemeMap)
    (word : String) (accuracy : Nat) (minZipf : ℚ) (maxResults : Nat)
    (useFreqFilter : Bool) :
    process env store m word accuracy minZipf maxResults useFreqFilter =
      process env store m (pyLower word) accuracy minZipf maxResults useFreqFilter := by
  unfold process
  rw [pyLower_idem]

/-- C6 counterexample: the unknown query "zzz" (no store entry) and the
known query "reese" (entry present, but every candidate is filtered away)
produce the very same plain empty list on the same output channel; the code
emits no distinct `UnknownWord` tag, so the caller cannot distinguish the
two outcomes. -/
theorem c6_counterexample :
    process env₀ store₀ (buildPhonemeMap store₀) "zzz" 90 2 10 true = [] ∧
      process env₀ store₀ (buildPhonemeMap store₀) "reese" 90 2 10 true = [] ∧
      cmuLookup store₀ (pyLower "zzz") = [] ∧
      (cmuLookup store₀ (pyLower "reese")).length = 2 := by decide

/-- C6 amended: a query word with no pronunciation entry yields the plain
empty result list — the same value, on the same channel, as a known word
with no surviving homophone; no `UnknownWord` tag exists in the worker's
output. -/
theorem c6_amended (env : SearchEnv) (store : Store) (m : PhonemeMap) (word : String)
    (accuracy : Nat) (minZipf : ℚ) (maxResults : Nat) (useFreqFilter : Bool)
    (h : cmuLookup store (pyLower word) = []) :
    process env store m word accuracy minZipf maxResults useFreqFilter = [] := by
  unfold process processLowered
  rw [if_pos h]

/-- C6 amended witness: the unknown word "zzz". -/
theorem c6_amended_witness :
    cmuLookup store₀ (pyLower "zzz") = [] ∧
      process env₀ store₀ (buildPhonemeMap store₀) "zzz" 90 2 10 true = [] :=
  ⟨by decide, c6_amended env₀ store₀ (buildPhonemeMap store₀) "zzz" 90 2 10 true (by decide)⟩

/-- C5: on a concrete three-word store the build emits progress 0, 33, 66 —
integers that are non-decreasing and within 0–100 — but the last emission is
66, and the value 100 is never emitted: `int((i/total)*100)` is emitted at
the top of iteration `i ∈ 0 … total-1`, so the run ends at
`floor((total-1)*100/total) < 100`, contradicting the required terminal
value of exactly 100. -/
theorem c5_progress_never_100 :
    progressEmissions store₀ = [0, 33, 66] ∧
      List.Chain' (· ≤ ·) (progressEmissions store₀) ∧
      (progressEmissions store₀).getLast? = some 66 ∧
      (progressEmissions store₀).count 100 = 0 := by
  have heq : progressEmissions store₀ = [0, 33, 66] := by decide
  refine ⟨heq, ?_, by decide, by decide⟩
  rw [heq]
  simp

/-- C1: for a query whose lowercased form has a non-empty pronunciation
entry, the matcher at threshold 100 accepts every index key equal to one of
the query's own normalized pronunciations (the similarity oracle, like
`fuzz.ratio`, scores 100 on identical strings), while the ranked result
never contains the query word itself, case-insensitively. -/
theorem c1_reflexive_match_and_self_exclusion (env : SearchEnv) (store : Store)
    (q : String) (minZipf : ℚ) (maxResults : Nat) (useFreqFilter : Bool)
    (hrefl : ∀ s, env.score s s = 100)
    (hq : cmuLookup store (pyLower q) ≠ []) :
    (∀ pron ∈ cmuLookup store (pyLower q),
        normalize pron ∈
          matchedSequences env (buildPhonemeMap store)
            (targetSequences store (pyLower q)) 100) ∧
      (∀ w ∈ process env store (buildPhonemeMap store) q 100 minZipf maxResults useFreqFilter,
        pyLower w ≠ pyLower q) := by
  constructor
  · intro pron hpron
    have hitem := cmuLookup_mem store (pyLower q) hq
    have hkey : normalize pron ∈ pmKeys (buildPhonemeMap store) :=
      mem_pmKeys_buildPhonemeMap store _ pron hitem hpron
    unfold pmKeys at hkey
    rw [List.mem_map] at hkey
    obtain ⟨e, he, hefst⟩ := hkey
    unfold matchedSequences
    rw [List.mem_map]
    refine ⟨e, ?_, hefst⟩
    unfold matchedEntries
    rw [List.mem_filter]
    refine ⟨he, ?_⟩
    rw [List.any_eq_true]
    refine ⟨normalize pron, ?_, ?_⟩
    · unfold targetSequences
      exact List.mem_map.mpr ⟨pron, hpron, rfl⟩
    · rw [hefst, hrefl]
      simp
  · intro w hw
    have hs := mem_survivors_of_mem_process hw
    rw [mem_survivors_iff] at hs
    obtain ⟨hc, hne, _⟩ := hs
    have hlow : pyLower w = w :=
      pyLower_fix_of_mem_pmWords_build store w (mem_pmWords_of_mem_candidateWords hc)
    rw [hlow]
    exact hne

/-- C1 witness: the "night" query against the concrete store; its normalized
pronunciation is matched at threshold 100, and "night" is not in its own
result. -/
theorem c1_reflexive_match_and_self_exclusion_witness :
    normalize ["N", "AY1", "T"] ∈
      matchedSequences env₀ (buildPhonemeMap store₀)
        (targetSequences store₀ (pyLower "night")) 100 :=
  (c1_reflexive_match_and_self_exclusion env₀ store₀ "night" 2 10 true
      (fun s => by simp [env₀, score₀]) (by decide)).1
    ["N", "AY1", "T"] (by decide)

/-- C3: with the frequency filter enabled every returned word has Zipf score
at least `min_zipf`, and whenever `min_zipf` is positive (the UI slider
keeps it in 1–6) a word absent from the frequency list — whose score is the
oracle default 0 — cannot be returned; with the filter disabled, the
`min_zipf` parameter has no effect whatsoever on the result. -/
theorem c3_frequency_filter (env : SearchEnv) (store : Store) (m : PhonemeMap)
    (word : String) (accuracy : Nat) (minZipf minZipf' : ℚ) (maxResults : Nat) :
    (∀ w ∈ process env store m word accuracy minZipf maxResults true,
        minZipf ≤ zipfFrequency env w ∧ (0 < minZipf → (env.freq w).isSome = true)) ∧
      process env store m word accuracy minZipf maxResults false =
        process env store m word accuracy minZipf' maxResults false := by
  constructor
  · intro w hw
    have hs := mem_survivors_of_mem_process hw
    rw [mem_survivors_iff] at hs
    have hz : minZipf ≤ zipfFrequency env w := hs.2.2 rfl
    refine ⟨hz, fun hpos => ?_⟩
    rcases hfw : env.freq w with _ | v
    · exfalso
      have hzf : zipfFrequency env w = 0 := by
        unfold zipfFrequency
        rw [hfw]
        rfl
      rw [hzf] at hz
      exact absurd (lt_of_le_of_lt hz hpos) (lt_irrefl _)
    · rfl
  · rfl

/-- C3 witness: the filtered "night" query returns "knight", whose frequency
meets the slider minimum of 2. -/
theorem c3_frequency_filter_witness :
    (2 : ℚ) ≤ zipfFrequency env₀ "knight" :=
  ((c3_frequency_filter env₀ store₀ (buildPhonemeMap store₀) "night" 100 2 7 10).1
    "knight" (by decide)).1

/-- C2: the returned list is sorted by descending frequency with ascending
lexicographic tie-break; with a positive cap it is exactly the first
`result_cap` elements of the sorted survivor list — so its length is at most
the cap and equal to `min cap #survivors`, its members all survive the
filters, and every omitted survivor ranks no higher than every returned word
(a genuine top-k prefix); with cap 0 the full sorted survivor set is
returned. -/
theorem c2_rank_and_cap (env : SearchEnv) (store : Store) (m : PhonemeMap)
    (word : String) (accuracy : Nat) (minZipf : ℚ) (maxResults : Nat)
    (useFreqFilter : Bool) :
    ((process env store m word accuracy minZipf maxResults useFreqFilter).Pairwise
        (rankLE env)) ∧
      (0 < maxResults →
        (process env store m word accuracy minZipf maxResults useFreqFilter).length ≤
          maxResults) ∧
      (0 < maxResults →
        process env store m word accuracy minZipf maxResults useFreqFilter =
          (sortWords env
            (survivors env store m (pyLower word) accuracy minZipf useFreqFilter)).take
            maxResults) ∧
      (0 < maxResults →
        (process env store m word accuracy minZipf maxResults useFreqFilter).length =
          min maxResults
            (survivors env store m (pyLower word) accuracy minZipf useFreqFilter).length) ∧
      (∀ w ∈ process env store m word accuracy minZipf maxResults useFreqFilter,
        w ∈ survivors env store m (pyLower word) accuracy minZipf useFreqFilter) ∧
      (maxResults = 0 →
        List.Perm (process env store m word accuracy minZipf maxResults useFreqFilter)
          (survivors env store m (pyLower word) accuracy minZipf useFreqFilter)) ∧
      (∀ v ∈ survivors env store m (pyLower word) accuracy minZipf useFreqFilter,
        v ∉ process env store m word accuracy minZipf maxResults useFreqFilter →
          ∀ u ∈ process env store m word accuracy minZipf maxResults useFreqFilter,
            rankLE env u v) := by
  have hdef : process env store m word accuracy minZipf maxResults useFreqFilter =
      capResults maxResults
        (sortWords env (survivors env store m (pyLower word) accuracy minZipf useFreqFilter)) := by
    unfold process
    exact processLowered_eq env store m (pyLower word) accuracy minZipf maxResults useFreqFilter
  have hsorted : List.Sorted (rankLE env)
      (sortWords env (survivors env store m (pyLower word) accuracy minZipf useFreqFilter)) :=
    sorted_sortWords env _
  have hperm : List.Perm
      (sortWords env (survivors env store m (pyLower word) accuracy minZipf useFreqFilter))
      (survivors env store m (pyLower word) accuracy minZipf useFreqFilter) :=
    perm_sortWords env _
  refine ⟨?_, ?_, ?_, ?_, ?_, ?_, ?_⟩
  · rw [hdef]
    unfold capResults
    split
    · exact hsorted.sublist (List.take_sublist _ _)
    · exact hsorted
  · intro hcap
    rw [hdef]
    unfold capResults
    rw [if_pos hcap]
    exact List.length_take_le _ _
  · intro hcap
    rw [hdef]
    unfold capResults
    rw [if_pos hcap]
  · intro hcap
    rw [hdef]
    unfold capResults
    rw [if_pos hcap, List.length_take, hperm.length_eq]
  · intro w hw
    exact mem_survivors_of_mem_process hw
  · intro hcap
    rw [hdef, hcap]
    unfold capResults
    simpa using hperm
  · intro v hv hnv u hu
    by_cases hcap : 0 < maxResults
    · rw [hdef] at hnv hu
      unfold capResults at hnv hu
      rw [if_pos hcap] at hnv hu
      have hvS : v ∈ sortWords env
          (survivors env store m (pyLower word) accuracy minZipf useFreqFilter) :=
        hperm.mem_iff.mpr hv
      set S := sortWords env
        (survivors env store m (pyLower word) accuracy minZipf useFreqFilter) with hS
      have hsplit : S = S.take maxResults ++ S.drop maxResults :=
        (List.take_append_drop _ _).symm
      have hvdrop : v ∈ S.drop maxResults := by
        rcases List.mem_append.mp (hsplit ▸ hvS) with h1 | h2
        · exact absurd h1 hnv
        · exact h2
      have hpw := List.pairwise_append.mp (hsplit ▸ hsorted)
      exact hpw.2.2 u hu v hvdrop
    · exfalso
      have hz : maxResults = 0 := Nat.eq_zero_of_not_pos hcap
      rw [hdef, hz] at hnv
      unfold capResults at hnv
      simp only [lt_irrefl, if_neg (lt_irrefl 0)] at hnv
      exact hnv (hperm.mem_iff.mpr hv)

/-- C2 witness: with cap 1 the "night" query returns at most one word, and
the result is exactly the one-element prefix of the sorted survivor list. -/
theorem c2_rank_and_cap_witness :
    (process env₀ store₀ (buildPhonemeMap store₀) "night" 100 2 1 true).length ≤ 1 ∧
      process env₀ store₀ (buildPhonemeMap store₀) "night" 100 2 1 true =
        (sortWords env₀
          (survivors env₀ store₀ (buildPhonemeMap store₀) (pyLower "night") 100 2 true)).take
          1 :=
  ⟨(c2_rank_and_cap env₀ store₀ (buildPhonemeMap store₀) "night" 100 2 1 true).2.1
      (by decide),
   (c2_rank_and_cap env₀ store₀ (buildPhonemeMap store₀) "night" 100 2 1 true).2.2.1
      (by decide)⟩

/-- C7 counterexample: "reese" has two stress variants normalizing to the
same sequence, so the build appends it twice under the one key — the claim
that no word appears twice in a single key's word list fails. -/
theorem c7_counterexample :
    pmLookup (buildPhonemeMap store₀) ["R", "IY", "S"] = ["reese", "reese"] ∧
      (pmLookup (buildPhonemeMap store₀) ["R", "IY", "S"]).count "reese" = 2 := by decide

/-- A duplicate-free list holds each element at most once. -/
theorem count_le_one_of_nodup {α : Type} [BEq α] [LawfulBEq α] {l : List α}
    (h : l.Nodup) (a : α) : l.count a ≤ 1 := by
  induction l with
  | nil => simp
  | cons b l ih =>
    rcases List.nodup_cons.mp h with ⟨hb, hl⟩
    by_cases hab : a = b
    · subst hab
      rw [List.count_cons_self]
      have h0 : l.count a = 0 := List.count_eq_zero.mpr hb
      omega
    · rw [List.count_cons_of_ne hab]
      exact ih hl

/-- A list holding each element at most once is duplicate-free. -/
theorem nodup_of_count_le_one {α : Type} [BEq α] [LawfulBEq α] {l : List α}
    (h : ∀ a, l.count a ≤ 1) : l.Nodup := by
  induction l with
  | nil => exact List.nodup_nil
  | cons b l ih =>
    rw [List.nodup_cons]
    refine ⟨?_, ?_⟩
    · intro hb
      have h1 : 0 < l.count b := List.count_pos_iff.mpr hb
      have h2 := h b
      rw [List.count_cons_self] at h2
      omega
    · apply ih
      intro a
      have ha := h a
      by_cases hab : a = b
      · subst hab
        rw [List.count_cons_self] at ha
        omega
      · rw [List.count_cons_of_ne hab] at ha
        exact ha

/-- Summing the per-item multiplicity contributions: with pairwise-distinct
lowercased words and collision-free variants per word, at most one item
contributes, and it contributes at most one occurrence. -/
theorem contribution_sum_le_one (store : Store) (k : Pron) (w : String)
    (hkeys : (store.map (fun item => pyLower item.1)).Nodup)
    (hvars : ∀ item ∈ store, (item.2.map normalize).Nodup) :
    (store.map (fun item =>
      if pyLower item.1 = w then (item.2.map normalize).count k else 0)).sum ≤ 1 := by
  induction store with
  | nil => simp
  | cons item rest ih =>
    rw [List.map_cons, List.sum_cons]
    have hkeys' : (pyLower item.1 :: rest.map (fun it => pyLower it.1)).Nodup := by
      simpa only [List.map_cons] using hkeys
    have hk := List.nodup_cons.mp hkeys'
    by_cases h : pyLower item.1 = w
    · have hrest0 : (rest.map (fun it =>
          if pyLower it.1 = w then (it.2.map normalize).count k else 0)).sum = 0 := by
        apply List.sum_eq_zero
        intro x hx
        rw [List.mem_map] at hx
        obtain ⟨it, hit, rfl⟩ := hx
        have hne : pyLower it.1 ≠ w := by
          intro he
          exact hk.1 (List.mem_map.mpr ⟨it, hit, by rw [he, h]⟩)
        rw [if_neg hne]
      rw [if_pos h, hrest0]
      have hcnt := count_le_one_of_nodup (hvars item (List.mem_cons_self _ _)) k
      omega
    · rw [if_neg h, Nat.zero_add]
      exact ih hk.2 (fun it hit => hvars it (List.mem_cons_of_mem _ hit))

/-- C7 amended: the build appends a word under a key once per pronunciation
variant normalizing to that key, so a word is never duplicated under a
single key provided its variants normalize to pairwise-distinct sequences
(and the dictionary's words stay distinct after lowercasing); the
counterexample shows exactly the variant-collision case the original claim
excluded. -/
theorem c7_amended (store : Store)
    (hkeys : (store.map (fun item => pyLower item.1)).Nodup)
    (hvars : ∀ item ∈ store, (item.2.map normalize).Nodup) (k : Pron) :
    (pmLookup (buildPhonemeMap store) k).Nodup := by
  apply nodup_of_count_le_one
  intro w
  rw [count_pmLookup_buildPhonemeMap]
  exact contribution_sum_le_one store k w hkeys hvars

/-- C7 amended witness: the collision-free two-word store yields a
duplicate-free word list under the shared key. -/
theorem c7_amended_witness :
    (store₁.map (fun item => pyLower item.1)).Nodup ∧
      (pmLookup (buildPhonemeMap store₁) ["N", "AY", "T"]).Nodup :=
  ⟨by decide, c7_amended store₁ (by decide) (by decide) ["N", "AY", "T"]⟩

end Homoform
